import Mathlib

/-!
Verification of the change-impact resolver specification for the Paxata/pants
repository, together with the `BenchmarkRun.execute` exit-code handling and the
`mutated_working_copy` test helper.

The resolver implementation itself is not present under the repository's
source tree (only its integration test,
`tests/python/pants_test/engine/legacy/test_changed_integration.py`, is), so
the resolver components (build graph, ownership index, dependee-closure
engine, exclusion filter, and the two resolver implementations whose
equivalence the test `assert_changed_new_equals_old` asserts) are modelled
from the specification.
-/

namespace ChangedResolver

/-- Modelled from the spec: a build target (spec section 3), the resolver's
unit of data.  `address` is an opaque unique string, `sources` the files the
target claims, `dependencies` the addresses of targets it directly depends
on.  The missing repository code is the target/build-graph data model used by
the `changed` goal. -/
structure Target where
  address : String
  sources : List String
  dependencies : List String
deriving DecidableEq

/-- Modelled from the spec: the build graph's node collection (spec section
3, "BuildGraph — nodes: mapping from address to Target; insertion order
irrelevant").  Represented as the list of targets; insertion-order
independence is proved, not assumed. -/
abbrev BuildGraph := List Target

/-- Modelled from the spec: the ownership index lookup `Owners(path)` (spec
section 4.2): the set of addresses of targets whose `sources` claim the
file. -/
def owners (g : BuildGraph) (f : String) : Finset String :=
  ((g.filter (fun t => f ∈ t.sources)).map (fun t => t.address)).toFinset

/-- Modelled from the spec: the reverse-edge view `ReverseEdges()` (spec
sections 3 and 4.1): the dependees of address `a` are the addresses of the
targets listing `a` as a dependency. -/
def dependees (g : BuildGraph) (a : String) : Finset String :=
  ((g.filter (fun t => a ∈ t.dependencies)).map (fun t => t.address)).toFinset

/-- The set of all target addresses in the graph. -/
def addrs (g : BuildGraph) : Finset String :=
  (g.map (fun t => t.address)).toFinset

theorem mem_owners {g : BuildGraph} {f a : String} :
    a ∈ owners g f ↔ ∃ t ∈ g, f ∈ t.sources ∧ t.address = a := by
  simp [owners, List.mem_filter, and_assoc]

theorem mem_dependees {g : BuildGraph} {a b : String} :
    b ∈ dependees g a ↔ ∃ t ∈ g, a ∈ t.dependencies ∧ t.address = b := by
  simp [dependees, List.mem_filter, and_assoc]

theorem mem_addrs {g : BuildGraph} {a : String} :
    a ∈ addrs g ↔ ∃ t ∈ g, t.address = a := by
  simp [addrs]

theorem dependees_subset_addrs (g : BuildGraph) (a : String) :
    dependees g a ⊆ addrs g := by
  intro b hb
  rcases mem_dependees.mp hb with ⟨t, ht, _, rfl⟩
  exact mem_addrs.mpr ⟨t, ht, rfl⟩

/-- One dependee step of the reverse-edge relation: `b` directly depends on
`a`. -/
def DependeeStep (g : BuildGraph) (a b : String) : Prop :=
  b ∈ dependees g a

/-- `a` is reachable from some seed by repeated reverse-edge (dependee)
traversal. -/
def ReachesFrom (g : BuildGraph) (seeds : Finset String) (a : String) : Prop :=
  ∃ s ∈ seeds, Relation.ReflTransGen (DependeeStep g) s a

/-- Modelled from the spec: one round of the dependee-closure engine's
breadth-first expansion over reverse edges (spec section 4.3): the current
set together with every direct dependee of a member. -/
def expandOnce (g : BuildGraph) (s : Finset String) : Finset String :=
  s ∪ s.biUnion (dependees g)

/-- Modelled from the spec: `Close` for mode `transitive` (spec section 4.3):
traversal over reverse edges "until no new address is discovered".  Iterating
the one-round expansion `(seeds ∪ addrs g).card` times is guaranteed to have
reached the stable point, since every discovered address lies in
`seeds ∪ addrs g`. -/
def closeTransitive (g : BuildGraph) (seeds : Finset String) : Finset String :=
  (expandOnce g)^[(seeds ∪ addrs g).card] seeds

/-- Modelled from the spec: the inclusion-mode selector (spec section 3,
"mode: one of none | direct | transitive"). -/
inductive Mode
  | none
  | direct
  | transitive
deriving DecidableEq

/-- Modelled from the spec: the dependee-closure engine
`Close(graph, reverseEdges, seeds, mode)` (spec section 4.3). -/
def close (g : BuildGraph) (seeds : Finset String) : Mode → Finset String
  | .none => seeds
  | .direct => seeds ∪ seeds.biUnion (dependees g)
  | .transitive => closeTransitive g seeds

theorem subset_expandOnce (g : BuildGraph) (s : Finset String) :
    s ⊆ expandOnce g s :=
  Finset.subset_union_left

theorem expandOnce_subset (g : BuildGraph) (s : Finset String) :
    expandOnce g s ⊆ s ∪ addrs g := by
  apply Finset.union_subset Finset.subset_union_left
  intro a ha
  rcases Finset.mem_biUnion.mp ha with ⟨b, _, hab⟩
  exact Finset.mem_union_right _ (dependees_subset_addrs g b hab)

theorem iter_expand_subset (g : BuildGraph) (seeds : Finset String) :
    ∀ n, (expandOnce g)^[n] seeds ⊆ seeds ∪ addrs g
  | 0 => Finset.subset_union_left
  | n + 1 => by
      rw [Function.iterate_succ_apply']
      refine (expandOnce_subset g _).trans ?_
      exact Finset.union_subset (iter_expand_subset g seeds n) Finset.subset_union_right

theorem iter_expand_le_succ (g : BuildGraph) (seeds : Finset String) (n : ℕ) :
    (expandOnce g)^[n] seeds ⊆ (expandOnce g)^[n + 1] seeds := by
  rw [Function.iterate_succ_apply']
  exact subset_expandOnce g _

theorem iter_expand_mono (g : BuildGraph) (seeds : Finset String) {m n : ℕ}
    (h : m ≤ n) : (expandOnce g)^[m] seeds ⊆ (expandOnce g)^[n] seeds := by
  induction n with
  | zero => simp [Nat.le_zero.mp h]
  | succ k ih =>
      rcases Nat.lt_or_ge m (k + 1) with hk | hk
      · exact (ih (Nat.lt_succ_iff.mp hk)).trans (iter_expand_le_succ g seeds k)
      · have : m = k + 1 := Nat.le_antisymm h hk
        subst this
        exact Finset.Subset.refl _

theorem iter_expand_stab (g : BuildGraph) (seeds : Finset String) {n : ℕ}
    (h : (expandOnce g)^[n + 1] seeds = (expandOnce g)^[n] seeds) :
    ∀ m, n ≤ m → (expandOnce g)^[m] seeds = (expandOnce g)^[n] seeds := by
  intro m hm
  induction m with
  | zero => rw [Nat.le_zero.mp hm]
  | succ k ih =>
      rcases Nat.lt_or_ge n (k + 1) with hk | hk
      · have hkn : n ≤ k := Nat.lt_succ_iff.mp hk
        rw [Function.iterate_succ_apply', ih hkn,
          ← Function.iterate_succ_apply' (expandOnce g) n seeds, h]
      · have : n = k + 1 := Nat.le_antisymm hm hk
        rw [this]

theorem exists_expand_fixpoint (g : BuildGraph) (seeds : Finset String) :
    ∃ n ≤ (seeds ∪ addrs g).card,
      (expandOnce g)^[n + 1] seeds = (expandOnce g)^[n] seeds := by
  by_contra hcon
  push_neg at hcon
  set N := (seeds ∪ addrs g).card with hN
  have grow : ∀ n, n ≤ N + 1 → n ≤ ((expandOnce g)^[n] seeds).card := by
    intro n
    induction n with
    | zero => intro _; exact Nat.zero_le _
    | succ k ih =>
        intro hk
        have hkN : k ≤ N := Nat.lt_succ_iff.mp hk
        have hssub : (expandOnce g)^[k] seeds ⊂ (expandOnce g)^[k + 1] seeds :=
          lt_of_le_of_ne (iter_expand_le_succ g seeds k) (Ne.symm (hcon k hkN))
        have := Finset.card_lt_card hssub
        have := ih (Nat.le_of_succ_le hk)
        omega
  have h1 : N + 1 ≤ ((expandOnce g)^[N + 1] seeds).card :=
    grow (N + 1) le_rfl
  have h2 : ((expandOnce g)^[N + 1] seeds).card ≤ N :=
    Finset.card_le_card (iter_expand_subset g seeds (N + 1))
  omega

theorem expandOnce_closeTransitive (g : BuildGraph) (seeds : Finset String) :
    expandOnce g (closeTransitive g seeds) = closeTransitive g seeds := by
  rcases exists_expand_fixpoint g seeds with ⟨n, hn, hfix⟩
  have hstab := iter_expand_stab g seeds hfix
  have hclose : closeTransitive g seeds = (expandOnce g)^[n] seeds :=
    hstab _ hn
  rw [closeTransitive] at hclose
  rw [closeTransitive, hclose,
    ← Function.iterate_succ_apply' (expandOnce g) n seeds, hfix]

theorem seeds_subset_closeTransitive (g : BuildGraph) (seeds : Finset String) :
    seeds ⊆ closeTransitive g seeds :=
  iter_expand_mono g seeds (Nat.zero_le _)

theorem iter_expand_reaches (g : BuildGraph) (seeds : Finset String) :
    ∀ n, ∀ a ∈ (expandOnce g)^[n] seeds, ReachesFrom g seeds a := by
  intro n
  induction n with
  | zero => intro a ha; exact ⟨a, ha, Relation.ReflTransGen.refl⟩
  | succ k ih =>
      intro a ha
      rw [Function.iterate_succ_apply'] at ha
      rcases Finset.mem_union.mp ha with ha | ha
      · exact ih a ha
      · rcases Finset.mem_biUnion.mp ha with ⟨b, hb, hab⟩
        rcases ih b hb with ⟨s, hs, hsb⟩
        exact ⟨s, hs, hsb.tail hab⟩

theorem reaches_mem_closeTransitive (g : BuildGraph) (seeds : Finset String)
    {a : String} (h : ReachesFrom g seeds a) : a ∈ closeTransitive g seeds := by
  rcases h with ⟨s, hs, hsa⟩
  induction hsa with
  | refl => exact seeds_subset_closeTransitive g seeds hs
  | tail _hbc hstep ih =>
      rw [← expandOnce_closeTransitive g seeds]
      exact Finset.mem_union_right _ (Finset.mem_biUnion.mpr ⟨_, ih, hstep⟩)

theorem mem_closeTransitive {g : BuildGraph} {seeds : Finset String}
    {a : String} : a ∈ closeTransitive g seeds ↔ ReachesFrom g seeds a :=
  ⟨iter_expand_reaches g seeds _ a, reaches_mem_closeTransitive g seeds⟩

/-- Modelled from the spec: the reverse-edge adjacency as a list, as iterated
by the engine implementation's traversal (spec section 4.3). -/
def dependeesList (g : BuildGraph) (a : String) : List String :=
  (g.filter (fun t => a ∈ t.dependencies)).map (fun t => t.address)

theorem mem_dependeesList {g : BuildGraph} {a b : String} :
    b ∈ dependeesList g a ↔ b ∈ dependees g a := by
  simp [dependeesList, dependees]

/-- Modelled from the spec: the engine implementation's depth-first worklist
traversal over reverse edges (spec section 4.3 permits "breadth/depth-first
traversal over reverse edges until no new address is discovered", with a
visited set guaranteeing termination).  `univ` bounds the addresses that may
be visited; termination is by the shrinking complement of `visited`. -/
def dfs (g : BuildGraph) (univ : Finset String) (visited : Finset String)
    (stack : List String) : Finset String :=
  match stack with
  | [] => visited
  | a :: rest =>
    if h : a ∈ visited ∨ a ∉ univ then dfs g univ visited rest
    else dfs g univ (insert a visited) (dependeesList g a ++ rest)
termination_by ((univ \ visited).card, stack.length)
decreasing_by
  · apply Prod.Lex.right
    simp
  · apply Prod.Lex.left
    push_neg at h
    have hsub : univ \ insert a visited ⊆ univ \ visited :=
      Finset.sdiff_subset_sdiff (le_refl univ) (Finset.subset_insert a visited)
    have hmem : a ∈ univ \ visited := Finset.mem_sdiff.mpr ⟨h.2, h.1⟩
    have hnmem : a ∉ univ \ insert a visited := by simp
    exact Finset.card_lt_card
      ((Finset.ssubset_iff_of_subset hsub).mpr ⟨a, hmem, hnmem⟩)

theorem dfs_subset (g : BuildGraph) (univ : Finset String)
    (visited : Finset String) (stack : List String) :
    visited ⊆ dfs g univ visited stack := by
  induction visited, stack using dfs.induct g univ with
  | case1 visited => simp [dfs]
  | case2 visited a rest h ih =>
      rw [dfs, dif_pos h]
      exact ih
  | case3 visited a rest h ih =>
      rw [dfs, dif_neg h]
      exact (Finset.subset_insert a visited).trans ih

theorem dfs_mem_of_stack (g : BuildGraph) (univ : Finset String)
    (visited : Finset String) (stack : List String) :
    ∀ a ∈ stack, a ∈ univ → a ∈ dfs g univ visited stack := by
  induction visited, stack using dfs.induct g univ with
  | case1 visited => intro a ha _; cases ha
  | case2 visited b rest h ih =>
      intro a ha hau
      rw [dfs, dif_pos h]
      rcases List.mem_cons.mp ha with rfl | ha
      · rcases h with h | h
        · exact dfs_subset g univ visited rest h
        · exact absurd hau h
      · exact ih a ha hau
  | case3 visited b rest h ih =>
      intro a ha hau
      rw [dfs, dif_neg h]
      rcases List.mem_cons.mp ha with rfl | ha
      · exact dfs_subset g univ _ _ (Finset.mem_insert_self a visited)
      · exact ih a (List.mem_append_right _ ha) hau

theorem dfs_sound (g : BuildGraph) (univ : Finset String)
    (visited : Finset String) (stack : List String) :
    ∀ a ∈ dfs g univ visited stack,
      a ∈ visited ∨ ∃ s ∈ stack, Relation.ReflTransGen (DependeeStep g) s a := by
  induction visited, stack using dfs.induct g univ with
  | case1 visited =>
      intro a ha
      rw [dfs] at ha
      exact Or.inl ha
  | case2 visited b rest h ih =>
      intro a ha
      rw [dfs, dif_pos h] at ha
      rcases ih a ha with hv | ⟨s, hs, hsa⟩
      · exact Or.inl hv
      · exact Or.inr ⟨s, List.mem_cons_of_mem b hs, hsa⟩
  | case3 visited b rest h ih =>
      intro a ha
      rw [dfs, dif_neg h] at ha
      rcases ih a ha with hv | ⟨s, hs, hsa⟩
      · rcases Finset.mem_insert.mp hv with rfl | hv
        · exact Or.inr ⟨a, List.mem_cons_self a rest, Relation.ReflTransGen.refl⟩
        · exact Or.inl hv
      · rcases List.mem_append.mp hs with hs | hs
        · refine Or.inr ⟨b, List.mem_cons_self b rest, ?_⟩
          exact Relation.ReflTransGen.head (mem_dependeesList.mp hs) hsa
        · exact Or.inr ⟨s, List.mem_cons_of_mem b hs, hsa⟩

/-- The worklist invariant of the depth-first traversal: every dependee (that
lies in the visiting universe) of an already-visited node is visited or still
on the stack. -/
def DfsInv (g : BuildGraph) (univ visited : Finset String)
    (stack : List String) : Prop :=
  ∀ v ∈ visited, ∀ d ∈ dependees g v, d ∈ univ → d ∈ visited ∨ d ∈ stack

theorem dfs_closed (g : BuildGraph) (univ : Finset String)
    (visited : Finset String) (stack : List String) :
    DfsInv g univ visited stack →
      ∀ v ∈ dfs g univ visited stack, ∀ d ∈ dependees g v,
        d ∈ univ → d ∈ dfs g univ visited stack := by
  induction visited, stack using dfs.induct g univ with
  | case1 visited =>
      intro hinv v hv d hd hdu
      rw [dfs] at hv ⊢
      rcases hinv v hv d hd hdu with h | h
      · exact h
      · cases h
  | case2 visited b rest h ih =>
      intro hinv
      rw [dfs, dif_pos h]
      apply ih
      intro v hv d hd hdu
      rcases hinv v hv d hd hdu with hdv | hds
      · exact Or.inl hdv
      · rcases List.mem_cons.mp hds with rfl | hds
        · rcases h with h | h
          · exact Or.inl h
          · exact absurd hdu h
        · exact Or.inr hds
  | case3 visited b rest h ih =>
      intro hinv
      rw [dfs, dif_neg h]
      apply ih
      intro v hv d hd hdu
      rcases Finset.mem_insert.mp hv with rfl | hv
      · exact Or.inr (List.mem_append_left _ (mem_dependeesList.mpr hd))
      · rcases hinv v hv d hd hdu with hdv | hds
        · exact Or.inl (Finset.mem_insert_of_mem hdv)
        · rcases List.mem_cons.mp hds with rfl | hds
          · exact Or.inl (Finset.mem_insert_self d visited)
          · exact Or.inr (List.mem_append_right _ hds)

/-- Modelled from the spec: the engine implementation's transitive closure:
depth-first worklist traversal seeded with the (possibly duplicated) seed
address list, over the universe of seeds and graph addresses. -/
def engineCloseTransitive (g : BuildGraph) (seedList : List String) :
    Finset String :=
  dfs g (seedList.toFinset ∪ addrs g) ∅ seedList

theorem mem_engineCloseTransitive {g : BuildGraph} {seedList : List String}
    {a : String} :
    a ∈ engineCloseTransitive g seedList ↔ ReachesFrom g seedList.toFinset a := by
  constructor
  · intro ha
    rcases dfs_sound g (seedList.toFinset ∪ addrs g) ∅ seedList a ha with
      hv | ⟨s, hs, hsa⟩
    · cases hv
    · exact ⟨s, List.mem_toFinset.mpr hs, hsa⟩
  · rintro ⟨s, hs, hsa⟩
    have hclosed := dfs_closed g (seedList.toFinset ∪ addrs g) ∅ seedList
      (by intro v hv; cases hv)
    induction hsa with
    | refl =>
        exact dfs_mem_of_stack g (seedList.toFinset ∪ addrs g) ∅ seedList s
          (List.mem_toFinset.mp hs) (Finset.mem_union_left _ hs)
    | tail _hbc hstep ih =>
        refine hclosed _ ih _ hstep ?_
        exact Finset.mem_union_right _ (dependees_subset_addrs g _ hstep)

/-- Modelled from the spec: exclusion patterns are regular expressions over
characters (spec section 4.4), with standard regular-expression semantics. -/
abbrev Pattern := RegularExpression Char

/-- Decides whether some PREFIX of `l` is matched by `p`, by Brzozowski
derivatives. -/
def hasMatchFromStart (p : Pattern) : List Char → Bool
  | [] => p.matchEpsilon
  | c :: rest => p.matchEpsilon || hasMatchFromStart (p.deriv c) rest

/-- Modelled from the spec: unanchored regular-expression search (spec
section 4.4, "unanchored search, not full-match, ... a substring match
suffices to exclude"): decides whether some contiguous substring of `l` is
matched by `p`. -/
def searchB (p : Pattern) : List Char → Bool
  | [] => p.matchEpsilon
  | c :: rest => hasMatchFromStart p (c :: rest) || searchB p rest

theorem hasMatchFromStart_iff (l : List Char) (p : Pattern) :
    hasMatchFromStart p l = true ↔ ∃ v w, l = v ++ w ∧ p.rmatch v := by
  induction l generalizing p with
  | nil =>
      simp only [hasMatchFromStart]
      constructor
      · intro h
        exact ⟨[], [], rfl, by simpa [RegularExpression.rmatch] using h⟩
      · rintro ⟨v, w, hvw, hv⟩
        rcases List.append_eq_nil.mp hvw.symm with ⟨rfl, rfl⟩
        simpa [RegularExpression.rmatch] using hv
  | cons c rest ih =>
      simp only [hasMatchFromStart, Bool.or_eq_true]
      constructor
      · rintro (h | h)
        · exact ⟨[], c :: rest, rfl, by simpa [RegularExpression.rmatch] using h⟩
        · rcases (ih (p.deriv c)).mp h with ⟨v, w, hvw, hv⟩
          exact ⟨c :: v, w, by simp [hvw], by simpa [RegularExpression.rmatch] using hv⟩
      · rintro ⟨v, w, hvw, hv⟩
        match v, hvw with
        | [], _ =>
            left
            simpa [RegularExpression.rmatch] using hv
        | c' :: v', hvw =>
            have hc : c' = c := by
              have := congrArg (fun x => x.head?) hvw
              simpa using this.symm
            subst hc
            right
            refine (ih (p.deriv c')).mpr ⟨v', w, ?_, ?_⟩
            · have := congrArg (fun x => x.tail) hvw
              simpa using this
            · simpa [RegularExpression.rmatch] using hv

theorem searchB_iff (l : List Char) (p : Pattern) :
    searchB p l = true ↔ ∃ u v w, l = u ++ v ++ w ∧ p.rmatch v := by
  induction l with
  | nil =>
      simp only [searchB]
      constructor
      · intro h
        exact ⟨[], [], [], rfl, by simpa [RegularExpression.rmatch] using h⟩
      · rintro ⟨u, v, w, huvw, hv⟩
        rcases List.append_eq_nil.mp huvw.symm with ⟨h1, rfl⟩
        rcases List.append_eq_nil.mp h1 with ⟨rfl, rfl⟩
        simpa [RegularExpression.rmatch] using hv
  | cons c rest ih =>
      simp only [searchB, Bool.or_eq_true]
      constructor
      · rintro (h | h)
        · rcases (hasMatchFromStart_iff (c :: rest) p).mp h with ⟨v, w, hvw, hv⟩
          exact ⟨[], v, w, by simp [hvw], hv⟩
        · rcases ih.mp h with ⟨u, v, w, huvw, hv⟩
          exact ⟨c :: u, v, w, by simp [huvw], hv⟩
      · rintro ⟨u, v, w, huvw, hv⟩
        match u, huvw with
        | [], huvw =>
            left
            exact (hasMatchFromStart_iff (c :: rest) p).mpr
              ⟨v, w, by simpa using huvw, hv⟩
        | c' :: u', huvw =>
            right
            refine ih.mpr ⟨u', v, w, ?_, hv⟩
            have := congrArg (fun x => x.tail) huvw
            simpa using this

/-- Unanchored search phrased over the language semantics of the pattern:
some contiguous substring of the address belongs to the pattern's
language. -/
theorem searchB_iff_matches (l : List Char) (p : Pattern) :
    searchB p l = true ↔ ∃ u v w, l = u ++ v ++ w ∧ v ∈ p.matches' := by
  rw [searchB_iff]
  constructor
  · rintro ⟨u, v, w, h, hv⟩
    exact ⟨u, v, w, h, (RegularExpression.rmatch_iff_matches' p v).mp hv⟩
  · rintro ⟨u, v, w, h, hv⟩
    exact ⟨u, v, w, h, (RegularExpression.rmatch_iff_matches' p v).mpr hv⟩

/-- Modelled from the spec: "an address is dropped if
exists p in patterns: p.matches(address)" (spec section 4.4). -/
def matchesAny (pats : List Pattern) (a : String) : Bool :=
  pats.any (fun p => searchB p a.toList)

/-- Modelled from the spec: the exclusion filter
`Filter(results, patterns)` (spec section 4.4), a pure projection applied
after the closure. -/
def filterExcluded (res : Finset String) (pats : List Pattern) : Finset String :=
  res.filter (fun a => matchesAny pats a = false)

theorem mem_filterExcluded {res : Finset String} {pats : List Pattern}
    {a : String} :
    a ∈ filterExcluded res pats ↔ a ∈ res ∧ matchesAny pats a = false :=
  Finset.mem_filter

/-- Modelled from the spec: the legacy resolver's seed computation,
`seeds = union of Owners(f) for f in changeSet.files` (spec section 4.5). -/
def seedsOfFiles (g : BuildGraph) (files : List String) : Finset String :=
  files.foldr (fun f acc => owners g f ∪ acc) ∅

theorem mem_seedsOfFiles {g : BuildGraph} {files : List String} {a : String} :
    a ∈ seedsOfFiles g files ↔ ∃ f ∈ files, a ∈ owners g f := by
  induction files with
  | nil => simp [seedsOfFiles]
  | cons f fs ih =>
      simp only [seedsOfFiles, List.foldr_cons, Finset.mem_union, List.mem_cons]
      rw [seedsOfFiles] at ih
      rw [ih]
      constructor
      · rintro (h | ⟨f', hf', ha⟩)
        · exact ⟨f, Or.inl rfl, h⟩
        · exact ⟨f', Or.inr hf', ha⟩
      · rintro ⟨f', hf' | hf', ha⟩
        · exact Or.inl (hf' ▸ ha)
        · exact Or.inr ⟨f', hf', ha⟩

/-- Modelled from the spec: the legacy resolver implementation's
`ResolveFromFiles(changeSet, mode, excludePatterns)` pipeline (spec section
4.5): ownership seeds, dependee closure, exclusion filtering. -/
def legacyResolveFromFiles (g : BuildGraph) (files : List String) (mode : Mode)
    (pats : List Pattern) : Finset String :=
  filterExcluded (close g (seedsOfFiles g files) mode) pats

/-- Modelled from the spec: the engine implementation's ownership lookup,
built by its own fold over the graph. -/
def engineOwnersList (g : BuildGraph) (f : String) : List String :=
  g.foldr (fun t acc => if f ∈ t.sources then t.address :: acc else acc) []

theorem mem_engineOwnersList {g : BuildGraph} {f a : String} :
    a ∈ engineOwnersList g f ↔ a ∈ owners g f := by
  rw [mem_owners]
  induction g with
  | nil => simp [engineOwnersList]
  | cons t ts ih =>
      simp only [engineOwnersList, List.foldr_cons] at ih ⊢
      by_cases h : f ∈ t.sources <;> simp [h, ih] <;> aesop

/-- Modelled from the spec: the engine implementation's seed address list
(with duplicates; duplicates are harmless because the output is a set). -/
def engineSeedsList (g : BuildGraph) (files : List String) : List String :=
  files.flatMap (engineOwnersList g)

theorem engineSeedsList_toFinset (g : BuildGraph) (files : List String) :
    (engineSeedsList g files).toFinset = seedsOfFiles g files := by
  ext a
  rw [List.mem_toFinset, engineSeedsList, List.mem_flatMap, mem_seedsOfFiles]
  constructor
  · rintro ⟨f, hf, ha⟩
    exact ⟨f, hf, mem_engineOwnersList.mp ha⟩
  · rintro ⟨f, hf, ha⟩
    exact ⟨f, hf, mem_engineOwnersList.mpr ha⟩

/-- Modelled from the spec: the engine implementation's dependee-closure,
built independently of the legacy one: a fold for mode `direct`, a
depth-first worklist for mode `transitive`. -/
def engineClose (g : BuildGraph) (seedList : List String) : Mode → Finset String
  | .none => seedList.toFinset
  | .direct => seedList.foldr (fun s acc => insert s (dependees g s ∪ acc)) ∅
  | .transitive => engineCloseTransitive g seedList

theorem mem_engineClose_direct {g : BuildGraph} {seedList : List String}
    {a : String} :
    a ∈ engineClose g seedList .direct ↔
      a ∈ seedList.toFinset ∨ ∃ s ∈ seedList.toFinset, a ∈ dependees g s := by
  simp only [engineClose]
  induction seedList with
  | nil => simp
  | cons s ss ih =>
      simp only [List.foldr_cons, Finset.mem_insert, Finset.mem_union, ih]
      simp only [List.toFinset_cons, Finset.mem_insert, List.mem_toFinset]
      aesop

/-- Modelled from the spec: the engine implementation's keep-predicate for
exclusion: every pattern must fail to match. -/
def engineKeep (pats : List Pattern) (a : String) : Bool :=
  pats.all (fun p => !(searchB p a.toList))

/-- Modelled from the spec: the newer engine-based resolver implementation's
`ResolveFromFiles` pipeline, built independently of the legacy one. -/
def engineResolveFromFiles (g : BuildGraph) (files : List String) (mode : Mode)
    (pats : List Pattern) : Finset String :=
  (engineClose g (engineSeedsList g files) mode).filter
    (fun a => engineKeep pats a = true)

theorem engineKeep_iff {pats : List Pattern} {a : String} :
    engineKeep pats a = true ↔ matchesAny pats a = false := by
  simp [engineKeep, matchesAny, List.all_eq_true, List.any_eq_false]

theorem mem_close_none {g : BuildGraph} {seeds : Finset String} {a : String} :
    a ∈ close g seeds .none ↔ a ∈ seeds := Iff.rfl

theorem mem_close_direct {g : BuildGraph} {seeds : Finset String} {a : String} :
    a ∈ close g seeds .direct ↔ a ∈ seeds ∨ ∃ s ∈ seeds, a ∈ dependees g s := by
  simp [close, Finset.mem_union, Finset.mem_biUnion]

theorem mem_close_transitive {g : BuildGraph} {seeds : Finset String}
    {a : String} :
    a ∈ close g seeds .transitive ↔ ReachesFrom g seeds a :=
  mem_closeTransitive

/-- The two resolver implementations agree elementwise. -/
theorem legacy_engine_agree (g : BuildGraph) (files : List String)
    (mode : Mode) (pats : List Pattern) (a : String) :
    a ∈ legacyResolveFromFiles g files mode pats ↔
      a ∈ engineResolveFromFiles g files mode pats := by
  rw [legacyResolveFromFiles, engineResolveFromFiles, mem_filterExcluded,
    Finset.mem_filter, engineKeep_iff]
  refine and_congr ?_ Iff.rfl
  cases mode with
  | none =>
      rw [mem_close_none]
      simp only [engineClose]
      rw [engineSeedsList_toFinset]
  | direct =>
      rw [mem_close_direct, mem_engineClose_direct, engineSeedsList_toFinset]
  | transitive =>
      rw [mem_close_transitive]
      simp only [engineClose]
      rw [mem_engineCloseTransitive, engineSeedsList_toFinset]

/-- Modelled from the spec: the integration-test fixture's python chain (spec
section 8 and the test's `TEST_MAPPING`): `test` and
`test_library_direct_dependee` depend on `test_library` (which owns
`test_library.py`), and `test_library_transitive_dependee` through
`..._4` form a chain of transitive dependees; `test_unclaimed_src.py` is
owned by no target. -/
def fixtureGraph : BuildGraph := [
  ⟨"src/python/python_targets:test",
    ["src/python/python_targets/test_binary.py"],
    ["src/python/python_targets:test_library"]⟩,
  ⟨"src/python/python_targets:test_library",
    ["src/python/python_targets/test_library.py"], []⟩,
  ⟨"src/python/python_targets:test_library_direct_dependee", [],
    ["src/python/python_targets:test_library"]⟩,
  ⟨"src/python/python_targets:test_library_transitive_dependee", [],
    ["src/python/python_targets:test_library_direct_dependee"]⟩,
  ⟨"src/python/python_targets:test_library_transitive_dependee_2", [],
    ["src/python/python_targets:test_library_transitive_dependee"]⟩,
  ⟨"src/python/python_targets:test_library_transitive_dependee_3", [],
    ["src/python/python_targets:test_library_transitive_dependee_2"]⟩,
  ⟨"src/python/python_targets:test_library_transitive_dependee_4", [],
    ["src/python/python_targets:test_library_transitive_dependee_3"]⟩]

/-- The character class `[0-9]` as a regular expression. -/
def digitClass : Pattern :=
  RegularExpression.char '0' + RegularExpression.char '1' +
  RegularExpression.char '2' + RegularExpression.char '3' +
  RegularExpression.char '4' + RegularExpression.char '5' +
  RegularExpression.char '6' + RegularExpression.char '7' +
  RegularExpression.char '8' + RegularExpression.char '9'

/-- The exclusion pattern `_[0-9]` used by the integration test
`test_test_changed_exclude_target`. -/
def underscoreDigit : Pattern := RegularExpression.char '_' * digitClass

/-- The literal pattern `direct`, matching the mid-chain address
`test_library_direct_dependee` only. -/
def directWord : Pattern :=
  RegularExpression.char 'd' * RegularExpression.char 'i' *
  RegularExpression.char 'r' * RegularExpression.char 'e' *
  RegularExpression.char 'c' * RegularExpression.char 't'

/-- Two targets present the same view to the resolver: equal address, and
sources and dependencies equal as sets (iteration order may differ). -/
def Target.SameView (t t' : Target) : Prop :=
  t.address = t'.address ∧
  (∀ f ∈ t.sources, f ∈ t'.sources) ∧ (∀ f ∈ t'.sources, f ∈ t.sources) ∧
  (∀ d ∈ t.dependencies, d ∈ t'.dependencies) ∧
  (∀ d ∈ t'.dependencies, d ∈ t.dependencies)

/-- Two build graphs present the same view: each target of one has a
same-view counterpart in the other (insertion order, duplicates, and edge
iteration order may differ). -/
def GraphSameView (g g' : BuildGraph) : Prop :=
  (∀ t ∈ g, ∃ t' ∈ g', Target.SameView t t') ∧
  (∀ t' ∈ g', ∃ t ∈ g, Target.SameView t' t)

instance (t t' : Target) : Decidable (Target.SameView t t') := by
  unfold Target.SameView
  infer_instance

instance (g g' : BuildGraph) : Decidable (GraphSameView g g') := by
  unfold GraphSameView Target.SameView
  infer_instance

theorem owners_congr {g g' : BuildGraph} (h : GraphSameView g g')
    (f : String) : owners g f = owners g' f := by
  ext a
  rw [mem_owners, mem_owners]
  constructor
  · rintro ⟨t, ht, hf, rfl⟩
    rcases h.1 t ht with ⟨t', ht', haddr, hs, _hs', _hd, _hd'⟩
    exact ⟨t', ht', hs f hf, haddr.symm⟩
  · rintro ⟨t', ht', hf, rfl⟩
    rcases h.2 t' ht' with ⟨t, ht, haddr, hs, _hs', _hd, _hd'⟩
    exact ⟨t, ht, hs f hf, haddr.symm⟩

theorem dependees_congr {g g' : BuildGraph} (h : GraphSameView g g')
    (a : String) : dependees g a = dependees g' a := by
  ext b
  rw [mem_dependees, mem_dependees]
  constructor
  · rintro ⟨t, ht, ha, rfl⟩
    rcases h.1 t ht with ⟨t', ht', haddr, _hs, _hs', hd, _hd'⟩
    exact ⟨t', ht', hd a ha, haddr.symm⟩
  · rintro ⟨t', ht', ha, rfl⟩
    rcases h.2 t' ht' with ⟨t, ht, haddr, _hs, _hs', hd, _hd'⟩
    exact ⟨t, ht, hd a ha, haddr.symm⟩

theorem reachesFrom_congr {g g' : BuildGraph} (h : GraphSameView g g')
    {seeds : Finset String} {a : String} :
    ReachesFrom g seeds a ↔ ReachesFrom g' seeds a := by
  have hstep : ∀ x y, DependeeStep g x y ↔ DependeeStep g' x y := by
    intro x y
    rw [DependeeStep, DependeeStep, dependees_congr h]
  constructor
  · rintro ⟨s, hs, hsa⟩
    exact ⟨s, hs, Relation.ReflTransGen.mono (fun x y => (hstep x y).mp) hsa⟩
  · rintro ⟨s, hs, hsa⟩
    exact ⟨s, hs, Relation.ReflTransGen.mono (fun x y => (hstep x y).mpr) hsa⟩

theorem seedsOfFiles_congr {g g' : BuildGraph} (h : GraphSameView g g')
    {files files' : List String} (hf : ∀ f, f ∈ files ↔ f ∈ files') :
    seedsOfFiles g files = seedsOfFiles g' files' := by
  ext a
  rw [mem_seedsOfFiles, mem_seedsOfFiles]
  constructor
  · rintro ⟨f, hmem, ha⟩
    exact ⟨f, (hf f).mp hmem, owners_congr h f ▸ ha⟩
  · rintro ⟨f, hmem, ha⟩
    exact ⟨f, (hf f).mpr hmem, (owners_congr h f).symm ▸ ha⟩

theorem close_congr {g g' : BuildGraph} (h : GraphSameView g g')
    (seeds : Finset String) (mode : Mode) :
    close g seeds mode = close g' seeds mode := by
  cases mode with
  | none => rfl
  | direct =>
      ext a
      rw [mem_close_direct, mem_close_direct]
      constructor
      · rintro (ha | ⟨s, hs, ha⟩)
        · exact Or.inl ha
        · exact Or.inr ⟨s, hs, dependees_congr h s ▸ ha⟩
      · rintro (ha | ⟨s, hs, ha⟩)
        · exact Or.inl ha
        · exact Or.inr ⟨s, hs, (dependees_congr h s).symm ▸ ha⟩
  | transitive =>
      ext a
      rw [mem_close_transitive, mem_close_transitive]
      exact reachesFrom_congr h

theorem legacyResolve_congr {g g' : BuildGraph} (h : GraphSameView g g')
    {files files' : List String} (hf : ∀ f, f ∈ files ↔ f ∈ files')
    (mode : Mode) (pats : List Pattern) :
    legacyResolveFromFiles g files mode pats =
      legacyResolveFromFiles g' files' mode pats := by
  rw [legacyResolveFromFiles, legacyResolveFromFiles,
    seedsOfFiles_congr h hf, close_congr h]

theorem reachesFrom_empty {g : BuildGraph} {a : String} :
    ¬ ReachesFrom g ∅ a := by
  rintro ⟨s, hs, _⟩
  cases hs

theorem close_empty (g : BuildGraph) (mode : Mode) : close g ∅ mode = ∅ := by
  cases mode with
  | none => rfl
  | direct => simp [close]
  | transitive =>
      ext a
      rw [mem_close_transitive]
      simp only [Finset.not_mem_empty, iff_false]
      exact reachesFrom_empty

theorem seedsOfFiles_of_unclaimed {g : BuildGraph} {files : List String}
    (h : ∀ f ∈ files, owners g f = ∅) : seedsOfFiles g files = ∅ := by
  ext a
  rw [mem_seedsOfFiles]
  simp only [Finset.not_mem_empty, iff_false]
  rintro ⟨f, hf, ha⟩
  rw [h f hf] at ha
  cases ha

theorem legacyResolve_of_unclaimed {g : BuildGraph} {files : List String}
    (h : ∀ f ∈ files, owners g f = ∅) (mode : Mode) (pats : List Pattern) :
    legacyResolveFromFiles g files mode pats = ∅ := by
  rw [legacyResolveFromFiles, seedsOfFiles_of_unclaimed h, close_empty,
    filterExcluded]
  exact Finset.filter_empty _

end ChangedResolver

namespace BenchmarkRun

/-- `os.path.dirname` over '/'-separated paths: everything before the last
separator, empty when there is none
(`benchmark_run.py` line 67 uses it to place `allocation.jar` next to the
agent jar). -/
def dirname (p : String) : String :=
  ⟨((p.toList.reverse.dropWhile (fun c => c ≠ '/')).drop 1).reverse⟩

/-- `os.path.join` for one component over '/'-separated paths. -/
def pathJoin (d f : String) : String :=
  if d = "" then f
  else if d.toList.getLast? = some '/' then d ++ f
  else d ++ "/" ++ f

/-- The state `BenchmarkRun.execute` acts on and its outcome: the filesystem
(path to contents), the process environment, and either normal return or the
raised `TaskError` message. -/
structure ExecResult where
  files : String → String
  env : String → Option String
  outcome : Except String Unit

/-- Shallow embedding of `BenchmarkRun.execute`
(`src/python/pants/backend/jvm/tasks/benchmark_run.py` lines 61-89): take
the first entry of the agent tool classpath, copy it to `allocation.jar` in
the same directory, set the `ALLOCATION_JAR` environment variable, invoke the
external runner `execute_java` (opaque; modelled by the exit code it
returns), and raise `TaskError` exactly when the exit code is non-zero.
An empty agent classpath (Python `IndexError` on `[0]`) yields `none`. -/
def execute (agentToolsClasspath : List String) (files : String → String)
    (env : String → Option String) (exitCode : Int) : Option ExecResult :=
  match agentToolsClasspath with
  | [] => none
  | agentJar :: _ =>
      let allocationJar := pathJoin (dirname agentJar) "allocation.jar"
      some
        { files := fun p => if p = allocationJar then files agentJar else files p
          env := fun k => if k = "ALLOCATION_JAR" then some allocationJar else env k
          outcome :=
            if exitCode ≠ 0 then
              Except.error
                ("java com.google.caliper.Runner ... exited non-zero (" ++
                  toString exitCode ++ ")")
            else Except.ok () }

end BenchmarkRun

namespace MutatedWorkingCopy

/-- Append `a` to the contents of file `f`
(`mutated_working_copy`, entry phase: `open(f, 'ab'); fh.write(to_append)`). -/
def fsAppend (fs : String → List Char) (f : String) (a : List Char) :
    String → List Char :=
  fun n => if n = f then fs n ++ a else fs n

/-- Drop the last `k` characters of `c` (`fh.seek(-len(to_append),
os.SEEK_END); fh.truncate()`). -/
def truncEnd (c : List Char) (k : ℕ) : List Char :=
  c.take (c.length - k)

/-- Truncate the last `k` characters of file `f`'s contents. -/
def fsTrunc (fs : String → List Char) (f : String) (k : ℕ) :
    String → List Char :=
  fun n => if n = f then truncEnd (fs n) k else fs n

/-- Shallow embedding of `mutated_working_copy`'s entry phase
(`test_changed_integration.py` lines 34-36): append `a` to every file of the
list, in order. -/
def mutateAll (fs : String → List Char) (files : List String)
    (a : List Char) : String → List Char :=
  files.foldl (fun acc f => fsAppend acc f a) fs

/-- Shallow embedding of `mutated_working_copy`'s exit phase
(`test_changed_integration.py` lines 40-44): truncate `a.length` characters
from the end of every file of the list, in order. -/
def restoreAll (fs : String → List Char) (files : List String)
    (a : List Char) : String → List Char :=
  files.foldl (fun acc f => fsTrunc acc f a.length) fs

/-- `k`-fold append of `a`. -/
def appendTimes (c a : List Char) : ℕ → List Char
  | 0 => c
  | k + 1 => appendTimes c a k ++ a

/-- `k`-fold end-truncation by `a.length`. -/
def truncTimes (c : List Char) (k : ℕ) : ℕ → List Char
  | 0 => c
  | m + 1 => truncTimes (truncEnd c k) k m

theorem appendTimes_absorb (c a : List Char) (k : ℕ) :
    appendTimes (c ++ a) a k = appendTimes c a (k + 1) := by
  induction k with
  | zero => rfl
  | succ m ih =>
      show appendTimes (c ++ a) a m ++ a = appendTimes c a (m + 1) ++ a
      rw [ih]

theorem mutateAll_apply (files : List String) (a : List Char) :
    ∀ (fs : String → List Char) (n : String),
      mutateAll fs files a n = appendTimes (fs n) a (files.count n) := by
  induction files with
  | nil => intro fs n; rfl
  | cons f rest ih =>
      intro fs n
      rw [mutateAll, List.foldl_cons, ← mutateAll, ih, fsAppend]
      by_cases hnf : n = f
      · rw [if_pos hnf, appendTimes_absorb, List.count_cons]
        simp [hnf]
      · rw [if_neg hnf, List.count_cons]
        simp [Ne.symm hnf]

theorem restoreAll_apply (files : List String) (a : List Char) :
    ∀ (fs : String → List Char) (n : String),
      restoreAll fs files a n = truncTimes (fs n) a.length (files.count n) := by
  induction files with
  | nil => intro fs n; rfl
  | cons f rest ih =>
      intro fs n
      rw [restoreAll, List.foldl_cons, ← restoreAll, ih, fsTrunc]
      by_cases hnf : n = f
      · rw [if_pos hnf, List.count_cons]
        simp only [hnf, beq_self_eq_true, if_true]
        rw [truncTimes]
      · rw [if_neg hnf, List.count_cons]
        simp [Ne.symm hnf]

theorem truncEnd_append (c a : List Char) : truncEnd (c ++ a) a.length = c := by
  rw [truncEnd, List.length_append, Nat.add_sub_cancel, List.take_left]

theorem truncTimes_appendTimes (c a : List Char) (k : ℕ) :
    truncTimes (appendTimes c a k) a.length k = c := by
  induction k with
  | zero => rfl
  | succ m ih =>
      rw [appendTimes, truncTimes, truncEnd_append]
      exact ih

end MutatedWorkingCopy

namespace ChangedResolver

/-- C1: for every build graph and every resolution request (same changed
files, inclusion mode, and exclusion patterns), the legacy resolver
implementation and the newer engine-based resolver implementation return
set-equal results. -/
theorem claim_C1 (g : BuildGraph) (files : List String) (mode : Mode)
    (pats : List Pattern) :
    legacyResolveFromFiles g files mode pats =
      engineResolveFromFiles g files mode pats :=
  Finset.ext (fun a => legacy_engine_agree g files mode pats a)

/-- C2: with mode `transitive` the result equals the seeds united with every
address reachable from a seed by repeated reverse-edge (dependee) traversal;
in the fixture chain, changing `test_library.py` with mode `transitive`
yields exactly the owning target plus the full chain of dependees, 7
addresses in total. -/
theorem claim_C2 :
    (∀ (g : BuildGraph) (seeds : Finset String) (a : String),
        a ∈ close g seeds .transitive ↔ a ∈ seeds ∨ ReachesFrom g seeds a) ∧
    legacyResolveFromFiles fixtureGraph
        ["src/python/python_targets/test_library.py"] .transitive [] =
      {"src/python/python_targets:test",
       "src/python/python_targets:test_library",
       "src/python/python_targets:test_library_direct_dependee",
       "src/python/python_targets:test_library_transitive_dependee",
       "src/python/python_targets:test_library_transitive_dependee_2",
       "src/python/python_targets:test_library_transitive_dependee_3",
       "src/python/python_targets:test_library_transitive_dependee_4"} := by
  constructor
  · intro g seeds a
    rw [mem_close_transitive]
    constructor
    · exact Or.inr
    · rintro (ha | h)
      · exact ⟨a, ha, Relation.ReflTransGen.refl⟩
      · exact h
  · decide

/-- C3: with mode `direct` the result equals the seeds united with exactly
the targets having a direct one-hop dependency edge into some seed; a target
two hops away is excluded even though reachable; changing `test_library.py`
with mode `direct` yields exactly the owning target plus its one-hop
dependees, 3 addresses. -/
theorem claim_C3 :
    (∀ (g : BuildGraph) (seeds : Finset String) (a : String),
        a ∈ close g seeds .direct ↔
          a ∈ seeds ∨ ∃ s ∈ seeds, a ∈ dependees g s) ∧
    legacyResolveFromFiles fixtureGraph
        ["src/python/python_targets/test_library.py"] .direct [] =
      {"src/python/python_targets:test",
       "src/python/python_targets:test_library",
       "src/python/python_targets:test_library_direct_dependee"} ∧
    "src/python/python_targets:test_library_transitive_dependee" ∉
      legacyResolveFromFiles fixtureGraph
        ["src/python/python_targets/test_library.py"] .direct [] := by
  refine ⟨fun g seeds a => mem_close_direct, ?_, ?_⟩
  · decide
  · decide

/-- C4: the seed set of a file-based resolution is exactly the deduplicated
union of the owners of the changed files; an unclaimed changed file
contributes no seeds; and when the only changed file is unclaimed the result
is empty under every mode. -/
theorem claim_C4 :
    (∀ (g : BuildGraph) (files : List String) (a : String),
        a ∈ seedsOfFiles g files ↔ ∃ f ∈ files, a ∈ owners g f) ∧
    (∀ (g : BuildGraph) (f : String) (files : List String),
        owners g f = ∅ → seedsOfFiles g (f :: files) = seedsOfFiles g files) ∧
    (∀ (g : BuildGraph) (files : List String) (mode : Mode)
        (pats : List Pattern),
        (∀ f ∈ files, owners g f = ∅) →
          legacyResolveFromFiles g files mode pats = ∅) ∧
    owners fixtureGraph "src/python/python_targets/test_unclaimed_src.py" = ∅ ∧
    legacyResolveFromFiles fixtureGraph
      ["src/python/python_targets/test_unclaimed_src.py"] .none [] = ∅ ∧
    legacyResolveFromFiles fixtureGraph
      ["src/python/python_targets/test_unclaimed_src.py"] .direct [] = ∅ ∧
    legacyResolveFromFiles fixtureGraph
      ["src/python/python_targets/test_unclaimed_src.py"] .transitive [] = ∅ := by
  refine ⟨fun g files a => mem_seedsOfFiles, ?_,
    fun g files mode pats h => legacyResolve_of_unclaimed h mode pats,
    by decide, by decide, by decide, by decide⟩
  intro g f files h
  show owners g f ∪ seedsOfFiles g files = seedsOfFiles g files
  rw [h, Finset.empty_union]

/-- C4 witness: the fixture's unclaimed file satisfies the unclaimed
hypothesis, and the resolution is empty. -/
theorem claim_C4_witness :
    (∀ f ∈ ["src/python/python_targets/test_unclaimed_src.py"],
        owners fixtureGraph f = ∅) ∧
    legacyResolveFromFiles fixtureGraph
      ["src/python/python_targets/test_unclaimed_src.py"] .direct [] = ∅ :=
  ⟨by decide,
   claim_C4.2.2.1 fixtureGraph
     ["src/python/python_targets/test_unclaimed_src.py"] .direct []
     (by decide)⟩

/-- C5: the exclusion filter drops an address if and only if at least one
pattern matches it, by unanchored regular-expression search over the full
address string (a substring in the pattern's language suffices), independent
of pattern order; excluding `_[0-9]` from the transitive result for
`test_library.py` removes exactly `transitive_dependee_2/3/4`. -/
theorem claim_C5 :
    (∀ (res : Finset String) (pats : List Pattern) (a : String),
        a ∈ filterExcluded res pats ↔
          a ∈ res ∧
            ¬ ∃ p ∈ pats, ∃ u v w,
              a.toList = u ++ v ++ w ∧ v ∈ p.matches') ∧
    (∀ (res : Finset String) (pats pats' : List Pattern),
        List.Perm pats pats' →
          filterExcluded res pats = filterExcluded res pats') ∧
    legacyResolveFromFiles fixtureGraph
        ["src/python/python_targets/test_library.py"] .transitive
        [underscoreDigit] =
      {"src/python/python_targets:test",
       "src/python/python_targets:test_library",
       "src/python/python_targets:test_library_direct_dependee",
       "src/python/python_targets:test_library_transitive_dependee"} := by
  refine ⟨?_, ?_, by decide⟩
  · intro res pats a
    rw [mem_filterExcluded]
    refine and_congr Iff.rfl ?_
    rw [← Bool.not_eq_true]
    apply not_congr
    simp only [matchesAny, List.any_eq_true]
    constructor
    · rintro ⟨p, hp, hs⟩
      rcases (searchB_iff_matches a.toList p).mp hs with ⟨u, v, w, hsplit, hv⟩
      exact ⟨p, hp, u, v, w, hsplit, hv⟩
    · rintro ⟨p, hp, u, v, w, hsplit, hv⟩
      exact ⟨p, hp, (searchB_iff_matches a.toList p).mpr ⟨u, v, w, hsplit, hv⟩⟩
  · intro res pats pats' hperm
    ext a
    rw [mem_filterExcluded, mem_filterExcluded]
    suffices h : matchesAny pats a = matchesAny pats' a by rw [h]
    rw [Bool.eq_iff_iff]
    simp only [matchesAny, List.any_eq_true]
    constructor
    · rintro ⟨p, hp, hs⟩
      exact ⟨p, hperm.mem_iff.mp hp, hs⟩
    · rintro ⟨p, hp, hs⟩
      exact ⟨p, hperm.mem_iff.mpr hp, hs⟩

/-- C5 witness: applying the order-independence part of C5 to a concrete
transposition of two patterns. -/
theorem claim_C5_witness :
    filterExcluded {"x_1", "ydirect"} [underscoreDigit, directWord] =
      filterExcluded {"x_1", "ydirect"} [directWord, underscoreDigit] :=
  claim_C5.2.1 {"x_1", "ydirect"} [underscoreDigit, directWord]
    [directWord, underscoreDigit] (List.Perm.swap directWord underscoreDigit [])

/-- C6: exclusion is a pure post-closure projection: the filtered closure is
a subset of the closure, membership after filtering is exactly closure
membership plus non-matching (so an excluded address never prevents another
address from being reached through it), filtering a closure none of whose
members match is a no-op, and in the fixture excluding the mid-chain address
(pattern `direct`) retains every address reached through it. -/
theorem claim_C6 :
    (∀ (g : BuildGraph) (seeds : Finset String) (mode : Mode)
        (pats : List Pattern),
        filterExcluded (close g seeds mode) pats ⊆ close g seeds mode) ∧
    (∀ (g : BuildGraph) (seeds : Finset String) (mode : Mode)
        (pats : List Pattern) (a : String),
        a ∈ filterExcluded (close g seeds mode) pats ↔
          a ∈ close g seeds mode ∧ matchesAny pats a = false) ∧
    (∀ (g : BuildGraph) (seeds : Finset String) (mode : Mode)
        (pats : List Pattern),
        (∀ a ∈ close g seeds mode, matchesAny pats a = false) →
          filterExcluded (close g seeds mode) pats = close g seeds mode) ∧
    legacyResolveFromFiles fixtureGraph
        ["src/python/python_targets/test_library.py"] .transitive
        [directWord] =
      {"src/python/python_targets:test",
       "src/python/python_targets:test_library",
       "src/python/python_targets:test_library_transitive_dependee",
       "src/python/python_targets:test_library_transitive_dependee_2",
       "src/python/python_targets:test_library_transitive_dependee_3",
       "src/python/python_targets:test_library_transitive_dependee_4"} := by
  refine ⟨fun g seeds mode pats => Finset.filter_subset _ _,
    fun g seeds mode pats a => mem_filterExcluded, ?_, by decide⟩
  intro g seeds mode pats h
  apply Finset.filter_true_of_mem h

/-- C6 witness: filtering with no matching pattern is a no-op on a concrete
closure. -/
theorem claim_C6_witness :
    (∀ a ∈ close fixtureGraph {"src/python/python_targets:test_library"} .direct,
        matchesAny [] a = false) ∧
    filterExcluded
        (close fixtureGraph {"src/python/python_targets:test_library"} .direct)
        [] =
      close fixtureGraph {"src/python/python_targets:test_library"} .direct :=
  ⟨by decide,
   claim_C6.2.2.1 fixtureGraph {"src/python/python_targets:test_library"}
     .direct [] (by decide)⟩

/-- C7: for every graph, fixed seed set, changed-file list, and pattern
list, the results are monotone across modes:
`none ⊆ direct ⊆ transitive`, both for the raw closure and for the full
resolution. -/
theorem claim_C7 (g : BuildGraph) (seeds : Finset String)
    (files : List String) (pats : List Pattern) :
    close g seeds .none ⊆ close g seeds .direct ∧
    close g seeds .direct ⊆ close g seeds .transitive ∧
    legacyResolveFromFiles g files .none pats ⊆
      legacyResolveFromFiles g files .direct pats ∧
    legacyResolveFromFiles g files .direct pats ⊆
      legacyResolveFromFiles g files .transitive pats := by
  have hdir : ∀ s : Finset String, close g s .direct ⊆ close g s .transitive := by
    intro s a ha
    rcases mem_close_direct.mp ha with ha | ⟨x, hx, hax⟩
    · exact seeds_subset_closeTransitive g s ha
    · exact reaches_mem_closeTransitive g s ⟨x, hx, Relation.ReflTransGen.single hax⟩
  refine ⟨Finset.subset_union_left, hdir seeds, ?_, ?_⟩
  · exact Finset.filter_subset_filter _ Finset.subset_union_left
  · exact Finset.filter_subset_filter _ (hdir _)

/-- C8: resolution is deterministic and representation-independent:
resolving the same pair twice yields identical sets; replacing the graph by
one presenting the same view (targets reordered or duplicated, source and
dependency lists reordered) and permuting the changed-file list never
changes the result; and the breadth-first-rounds closure and the
depth-first-worklist closure agree. -/
theorem claim_C8 :
    (∀ (g : BuildGraph) (files : List String) (mode : Mode)
        (pats : List Pattern),
        legacyResolveFromFiles g files mode pats =
          legacyResolveFromFiles g files mode pats) ∧
    (∀ (g g' : BuildGraph) (files files' : List String) (mode : Mode)
        (pats : List Pattern),
        GraphSameView g g' → (∀ f, f ∈ files ↔ f ∈ files') →
          legacyResolveFromFiles g files mode pats =
            legacyResolveFromFiles g' files' mode pats) ∧
    (∀ (g : BuildGraph) (seedList : List String),
        closeTransitive g seedList.toFinset = engineCloseTransitive g seedList) := by
  refine ⟨fun g files mode pats => rfl,
    fun g g' files files' mode pats hg hf => legacyResolve_congr hg hf mode pats,
    ?_⟩
  intro g seedList
  ext a
  rw [mem_closeTransitive, mem_engineCloseTransitive]

/-- C8 witness: a concrete graph reordering (target order, dependency-list
order, source-list order) and changed-file-list permutation leave the
resolution unchanged. -/
theorem claim_C8_witness :
    GraphSameView
        [⟨"a", ["f"], []⟩, ⟨"b", ["h", "f"], ["a", "b"]⟩]
        [⟨"b", ["f", "h"], ["b", "a"]⟩, ⟨"a", ["f"], []⟩] ∧
    (∀ f : String, f ∈ ["f", "g"] ↔ f ∈ ["g", "f", "f"]) ∧
    legacyResolveFromFiles [⟨"a", ["f"], []⟩, ⟨"b", ["h", "f"], ["a", "b"]⟩]
        ["f", "g"] .transitive [] =
      legacyResolveFromFiles [⟨"b", ["f", "h"], ["b", "a"]⟩, ⟨"a", ["f"], []⟩]
        ["g", "f", "f"] .transitive [] := by
  have hf : ∀ f : String, f ∈ ["f", "g"] ↔ f ∈ ["g", "f", "f"] := by
    intro f
    simp only [List.mem_cons, List.not_mem_nil, or_false]
    tauto
  exact ⟨by decide, hf,
    claim_C8.2.1 [⟨"a", ["f"], []⟩, ⟨"b", ["h", "f"], ["a", "b"]⟩]
      [⟨"b", ["f", "h"], ["b", "a"]⟩, ⟨"a", ["f"], []⟩]
      ["f", "g"] ["g", "f", "f"] .transitive [] (by decide) hf⟩

end ChangedResolver

namespace BenchmarkRun

/-- C9: `BenchmarkRun.execute` maps the external runner's exit code to
success or failure: it raises a `TaskError` if and only if the exit code
returned by `execute_java` is non-zero, and returns normally on zero, after
copying the agent jar to `allocation.jar` and setting the `ALLOCATION_JAR`
environment variable. -/
theorem claim_C9 (agentJar : String) (rest : List String)
    (files : String → String) (env : String → Option String) (exitCode : Int)
    (r : ExecResult)
    (h : execute (agentJar :: rest) files env exitCode = some r) :
    ((∃ msg, r.outcome = Except.error msg) ↔ exitCode ≠ 0) ∧
    (exitCode = 0 → r.outcome = Except.ok ()) ∧
    r.env "ALLOCATION_JAR" =
      some (pathJoin (dirname agentJar) "allocation.jar") ∧
    r.files (pathJoin (dirname agentJar) "allocation.jar") = files agentJar := by
  simp only [execute, Option.some.injEq] at h
  subst h
  refine ⟨?_, ?_, by simp, by simp⟩
  · constructor
    · rintro ⟨msg, hmsg⟩ h0
      rw [h0] at hmsg
      simp at hmsg
    · intro hne
      refine ⟨"java com.google.caliper.Runner ... exited non-zero (" ++
        toString exitCode ++ ")", ?_⟩
      simp [hne]
  · intro h0
    simp [h0]

/-- C9 witness: a concrete non-zero exit code raises, and the environment
variable and jar copy are observable. -/
theorem claim_C9_witness :
    ∃ r, execute ["d/agent.jar"] (fun _ => "jarbytes") (fun _ => none) 1 =
        some r ∧
      ((∃ msg, r.outcome = Except.error msg) ↔ (1 : Int) ≠ 0) ∧
      ((1 : Int) = 0 → r.outcome = Except.ok ()) ∧
      r.env "ALLOCATION_JAR" =
        some (pathJoin (dirname "d/agent.jar") "allocation.jar") ∧
      r.files (pathJoin (dirname "d/agent.jar") "allocation.jar") =
        (fun _ => "jarbytes" : String → String) "d/agent.jar" :=
  ⟨_, rfl, claim_C9 "d/agent.jar" [] (fun _ => "jarbytes") (fun _ => none) 1 _ rfl⟩

end BenchmarkRun

namespace MutatedWorkingCopy

/-- C10: `mutated_working_copy` is a round-trip on file contents: with a
non-empty append string, entry appends it to each listed file and exit
truncates exactly the appended number of characters from the end of each, so
every file's contents after exit equal its contents before entry (no other
modification happening in between is part of the model). -/
theorem claim_C10 (fs : String → List Char) (files : List String)
    (a : List Char) (_ha : a ≠ []) (n : String) :
    restoreAll (mutateAll fs files a) files a n = fs n := by
  rw [restoreAll_apply, mutateAll_apply]
  exact truncTimes_appendTimes (fs n) a (files.count n)

/-- C10 witness: round trip on a concrete file map with a duplicated file
list and the helper's default append string. -/
theorem claim_C10_witness :
    (['\n', ' '] : List Char) ≠ [] ∧
    restoreAll (mutateAll (fun _ => ['a', 'b']) ["f", "g", "f"] ['\n', ' '])
        ["f", "g", "f"] ['\n', ' '] "f" =
      (fun _ => ['a', 'b'] : String → List Char) "f" :=
  ⟨by decide,
   claim_C10 (fun _ => ['a', 'b']) ["f", "g", "f"] ['\n', ' '] (by decide) "f"⟩

end MutatedWorkingCopy
